import Mathlib

/-!
Verification of the gfx_blend graphics pipeline and the display_stream
snapshot encoder of the smart-home-lab repository ("the source" below).

The C++ code is shallowly embedded: machine integers (uint16_t, uint32_t)
become Nat with explicit `% 2^w` at the points where the source performs a
narrowing cast; `int`/`int16_t` coordinates become Int; the compile-time
trait introspection of the pipeline (presence and value of the optional
static members `read_bg` and `use_bg_as_source`) becomes explicit optional
fields on the embedded step type.
-/

set_option maxRecDepth 4000
set_option linter.unusedVariables false

namespace GfxVerify

/-! ### Bitfield toolkit

General lemmas connecting the masked/shifted RGB565 field manipulations of
the source to division/remainder arithmetic. -/

/-- A shifted-high part or-ed with a part below the shift is their sum. -/
theorem lor_high_low : ∀ (k a b : Nat), b < 2 ^ k → (a * 2 ^ k) ||| b = a * 2 ^ k + b := by
  intro k
  induction k with
  | zero =>
    intro a b hb
    interval_cases b
    simp
  | succ k ih =>
    intro a b hb
    have hpow : 2 ^ (k + 1) = 2 ^ k * 2 := by rw [Nat.pow_succ]
    have hmul : a * 2 ^ (k + 1) = 2 * (a * 2 ^ k) := by rw [hpow]; ring
    have hb2 : b / 2 < 2 ^ k := by omega
    have hdiv : (a * 2 ^ (k + 1) ||| b) / 2 = (a * 2 ^ (k + 1) + b) / 2 := by
      rw [Nat.or_div_two, hmul]
      have h2 : 2 * (a * 2 ^ k) / 2 = a * 2 ^ k := by omega
      rw [h2, ih a (b / 2) hb2]
      omega
    have hmod : (a * 2 ^ (k + 1) ||| b) % 2 = (a * 2 ^ (k + 1) + b) % 2 := by
      have hone := Nat.or_mod_two_eq_one (a := a * 2 ^ (k + 1)) (b := b)
      have heven : a * 2 ^ (k + 1) % 2 = 0 := by omega
      rcases Nat.mod_two_eq_zero_or_one b with hb0 | hb1
      · have : ¬((a * 2 ^ (k + 1) ||| b) % 2 = 1) := by
          rw [hone]
          omega
        omega
      · have : (a * 2 ^ (k + 1) ||| b) % 2 = 1 := by
          rw [hone]
          omega
        omega
    omega

/-- Masking with a field of `n` ones shifted up by `k` extracts that bitfield. -/
theorem and_mask_shift (x n k : Nat) : x &&& ((2 ^ n - 1) <<< k) = x / 2 ^ k % 2 ^ n * 2 ^ k := by
  have hrhs : x / 2 ^ k % 2 ^ n * 2 ^ k = ((x >>> k) % 2 ^ n) <<< k := by
    rw [Nat.shiftRight_eq_div_pow, Nat.shiftLeft_eq]
  rw [hrhs]
  apply Nat.eq_of_testBit_eq
  intro i
  simp only [Nat.testBit_and, Nat.testBit_shiftLeft, Nat.testBit_two_pow_sub_one,
    Nat.testBit_mod_two_pow, Nat.testBit_shiftRight]
  by_cases hk : k ≤ i
  · have hik : k + (i - k) = i := by omega
    have hge : i ≥ k := hk
    simp only [hik, hge, decide_True, Bool.true_and]
    by_cases hn : i - k < n
    · simp [hn, Bool.and_comm]
    · simp [hn]
  · have hge : ¬(i ≥ k) := hk
    simp [hge]

theorem and_F800 (x : Nat) : x &&& 63488 = x / 2048 % 32 * 2048 := by
  have h : (63488 : Nat) = (2 ^ 5 - 1) <<< 11 := by decide
  rw [h, and_mask_shift]
  norm_num

theorem and_07E0 (x : Nat) : x &&& 2016 = x / 32 % 64 * 32 := by
  have h : (2016 : Nat) = (2 ^ 6 - 1) <<< 5 := by decide
  rw [h, and_mask_shift]
  norm_num

theorem and_1F (x : Nat) : x &&& 31 = x % 32 := by
  have h : (31 : Nat) = 2 ^ 5 - 1 := by norm_num
  rw [h, Nat.and_pow_two_sub_one_eq_mod]

theorem and_3F (x : Nat) : x &&& 63 = x % 64 := by
  have h : (63 : Nat) = 2 ^ 6 - 1 := by norm_num
  rw [h, Nat.and_pow_two_sub_one_eq_mod]

theorem lor_2048 (a b : Nat) (hb : b < 2048) : (a * 2048) ||| b = a * 2048 + b := by
  have h2 : (2048 : Nat) = 2 ^ 11 := by norm_num
  rw [h2] at hb ⊢
  exact lor_high_low 11 a b hb

theorem lor_32 (a b : Nat) (hb : b < 32) : (a * 32) ||| b = a * 32 + b := by
  have h2 : (32 : Nat) = 2 ^ 5 := by norm_num
  rw [h2] at hb ⊢
  exact lor_high_low 5 a b hb

/-- Recombining three disjoint 5/6/5 fields with `|||` is plain addition. -/
theorem pack_or (a c d : Nat) (hc : c < 64) (hd : d < 32) :
    (a * 2048) ||| (c * 32) ||| d = a * 2048 + c * 32 + d := by
  rw [lor_2048 a (c * 32) (by omega)]
  have h5 : (32 : Nat) = 2 ^ 5 := by norm_num
  have hkey := lor_high_low 5 (a * 64 + c) d (by omega)
  have heq : (a * 64 + c) * 2 ^ 5 = a * 2048 + c * 32 := by norm_num; ring
  rw [heq] at hkey
  exact hkey

theorem shiftRight_div (x k : Nat) : x >>> k = x / 2 ^ k := Nat.shiftRight_eq_div_pow x k

theorem shiftLeft_mul (x k : Nat) : x <<< k = x * 2 ^ k := Nat.shiftLeft_eq x k

/-! ### Color codec (gfx_blend/defs.h)

`esphome::Color` stores one 8-bit value per channel. -/

structure Color where
  r : Nat
  g : Nat
  b : Nat
deriving DecidableEq

/-- rgb565_to_color (defs.h): extract the 5/6/5 fields of a packed RGB565
word and scale each to 8 bits by bit replication. -/
def rgb565_to_color (rgb565 : Nat) : Color :=
  let r5 := (rgb565 >>> 11) &&& 31
  let g6 := (rgb565 >>> 5) &&& 63
  let b5 := rgb565 &&& 31
  { r := (r5 <<< 3) ||| (r5 >>> 2)
    g := (g6 <<< 2) ||| (g6 >>> 4)
    b := (b5 <<< 3) ||| (b5 >>> 2) }

/-- Standard 5-6-5 truncating pack of an 8-bit-per-channel color into a
packed RGB565 word (spec section 4.1 `pack_to_16`; the same packing idiom
the source uses inline, e.g. at the end of Effects::grayscale). -/
def pack_to_16 (c : Color) : Nat :=
  ((c.r >>> 3) <<< 11) ||| ((c.g >>> 2) <<< 5) ||| (c.b >>> 3)

/-! ### Transform function set (Effects, src/unnamed/part_005) -/

/-- Pixel-transform signature: (x, y, incoming color, background color) to
the new packed color. -/
abbrev BlendFn := Int → Int → Nat → Nat → Nat

namespace Effects

/-- Effects::inverse returns `~fg`; on a uint16_t value this is the 16-bit
complement, i.e. xor with 0xFFFF. -/
def inverse : BlendFn := fun _x _y fg _bg => fg ^^^ 65535

/-- Effects::alpha_ : fixed-alpha blend of two RGB565 colors, channel by
channel, `(fg_c * alpha + bg_c * (255 - alpha)) >> 8`.  All intermediate
values are uint32_t and stay far below 2^32, so plain Nat arithmetic is
exact; the final uint16_t cast is the trailing `% 65536`. -/
def alpha_ (fg bg : Nat) (alpha : Nat) : Nat :=
  let inv_alpha := 255 - alpha
  let fg_r := (fg >>> 11) &&& 31
  let fg_g := (fg >>> 5) &&& 63
  let fg_b := fg &&& 31
  let bg_r := (bg >>> 11) &&& 31
  let bg_g := (bg >>> 5) &&& 63
  let bg_b := bg &&& 31
  let r := (fg_r * alpha + bg_r * inv_alpha) >>> 8
  let g := (fg_g * alpha + bg_g * inv_alpha) >>> 8
  let b := (fg_b * alpha + bg_b * inv_alpha) >>> 8
  ((r <<< 11) ||| (g <<< 5) ||| b) % 65536

/-- Effects::alpha returns the pipeline-shaped closure over alpha_. -/
def alpha (a : Nat) : BlendFn := fun _x _y fg bg => alpha_ fg bg a

/-- Effects::additive : `uint16_t sum = fg + bg` (wraps mod 2^16), mask the
three fields of the sum, and clamp a field to all-ones when it compares
below the corresponding field of fg. -/
def additive : BlendFn := fun _x _y fg bg =>
  let sum := (fg + bg) % 65536
  let r := sum &&& 63488
  let g := sum &&& 2016
  let b := sum &&& 31
  let r1 := if r < (fg &&& 63488) then 63488 else r
  let g1 := if g < (fg &&& 2016) then 2016 else g
  let b1 := if b < (fg &&& 31) then 31 else b
  r1 ||| g1 ||| b1

/-- Effects::subtract : per channel `bg_c - fg_c`, clamped to zero. -/
def subtract : BlendFn := fun _x _y fg bg =>
  let r := (bg >>> 11) - (fg >>> 11)
  let g := ((bg >>> 5) &&& 63) - ((fg >>> 5) &&& 63)
  let b := (bg &&& 31) - (fg &&& 31)
  ((r <<< 11) ||| (g <<< 5) ||| b) % 65536

/-- Effects::grayscale (fg, bg, intensity).  The source extracts the
channels of `bg`, bit-replicates them to 8 bits, computes the BT.709
luminance `(r*54 + g*183 + b*19) >> 8`, and then tests
`if (intensity = 255)` — an ASSIGNMENT, not a comparison: the parameter is
overwritten with 255 and the test is always true, so the direct-luminance
path is taken unconditionally and the interpolation tail below the branch
is dead code.  The embedding models that faithfully by shadowing the
parameter, exactly as the assignment does. -/
def grayscale (fg bg : Nat) (intensity : Nat) : Nat :=
  let r_5 := (bg >>> 11) &&& 31
  let g_6 := (bg >>> 5) &&& 63
  let b_5 := bg &&& 31
  let r := (r_5 <<< 3) ||| (r_5 >>> 2)
  let g := (g_6 <<< 2) ||| (g_6 >>> 4)
  let b := (b_5 <<< 3) ||| (b_5 >>> 2)
  let lum := (r * 54 + g * 183 + b * 19) >>> 8
  let intensity := 255
  if intensity = 255 then
    (((lum >>> 3) <<< 11) ||| ((lum >>> 2) <<< 5) ||| (lum >>> 3)) % 65536
  else
    let m := 4294967296
    let res_r := (r + (intensity * ((lum + m - r) % m)) % m >>> 8) % m
    let res_g := (g + (intensity * ((lum + m - g) % m)) % m >>> 8) % m
    let res_b := (b + (intensity * ((lum + m - b) % m)) % m >>> 8) % m
    (((res_r >>> 3) <<< 11) ||| ((res_g >>> 2) <<< 5) ||| (res_b >>> 3)) % 65536

end Effects

/-! ### Derived channel-extraction helpers -/

theorem extractR (x : Nat) : (x >>> 11) &&& 31 = x / 2048 % 32 := by
  rw [shiftRight_div, and_1F]
  norm_num

theorem extractG (x : Nat) : (x >>> 5) &&& 63 = x / 32 % 64 := by
  rw [shiftRight_div, and_3F]
  norm_num

theorem shl11 (x : Nat) : x <<< 11 = x * 2048 := by
  rw [shiftLeft_mul]
  norm_num

theorem shl5 (x : Nat) : x <<< 5 = x * 32 := by
  rw [shiftLeft_mul]
  norm_num

/-- A 5- or 6-bit channel multiplied by 255 and shifted down 8 drops to one
below its value (zero stays zero). -/
theorem chan255 {v : Nat} (h : v < 64) : (v * 255) >>> 8 = v - min v 1 := by
  have hall : ∀ w : Nat, w < 64 → (w * 255) >>> 8 = w - min w 1 := by decide
  exact hall v h

/-- C3 counterexample: the claim `alpha_blend(255)(fg,bg) = fg` fails at
fg = 0xFFFF (result 0xF7DE), and `alpha_blend(0)(fg,bg) = bg` fails at
bg = 0xFFFF (result 0xF7DE): the `>> 8` divisor loses one unit on every
nonzero channel. -/
theorem alpha_boundary_counterexample :
    Effects.alpha 255 0 0 65535 0 = 63454 ∧ (63454 : Nat) ≠ 65535 ∧
    Effects.alpha 0 0 0 0 65535 = 63454 := by
  decide

/-- C3 (amended): the fixed-alpha blend at alpha=255 returns per channel
`fg_c * 255 / 256`, which is `fg_c - 1` for a nonzero channel and 0 for a
zero channel; alpha=0 returns the same decrement of bg's channels.  It
equals fg (resp. bg) exactly when every channel is zero. -/
theorem alpha_boundary_amended (fg bg : Nat) :
    Effects.alpha_ fg bg 255 =
      (fg / 2048 % 32 - min (fg / 2048 % 32) 1) * 2048 +
      (fg / 32 % 64 - min (fg / 32 % 64) 1) * 32 +
      (fg % 32 - min (fg % 32) 1) ∧
    Effects.alpha_ fg bg 0 =
      (bg / 2048 % 32 - min (bg / 2048 % 32) 1) * 2048 +
      (bg / 32 % 64 - min (bg / 32 % 64) 1) * 32 +
      (bg % 32 - min (bg % 32) 1) := by
  constructor
  · simp only [Effects.alpha_]
    simp only [extractR, extractG]
    simp only [and_1F]
    simp only [Nat.sub_self, Nat.mul_zero, Nat.add_zero]
    rw [chan255 (by omega), chan255 (by omega), chan255 (by omega), shl11, shl5,
      pack_or _ _ _ (by omega) (by omega)]
    omega
  · simp only [Effects.alpha_]
    simp only [extractR, extractG]
    simp only [and_1F]
    simp only [Nat.sub_zero, Nat.mul_zero, Nat.zero_add]
    rw [chan255 (by omega), chan255 (by omega), chan255 (by omega), shl11, shl5,
      pack_or _ _ _ (by omega) (by omega)]
    omega

/-- C6 counterexample: for fg = 0x0001 and bg = 0x07FF the blue-field carry
propagates into the green field of the 16-bit sum; the green clamp compares
against fg only and does not fire, so the result 0x081F has green channel 0
while bg's green channel is 63 — the result is below an input channel. -/
theorem additive_bg_bound_counterexample :
    Effects.additive 0 0 1 2047 = 2079 ∧
    Effects.additive 0 0 1 2047 / 32 % 64 < 2047 / 32 % 64 := by
  decide

/-- C6 (amended): every channel of the additive blend's result is at least
the corresponding channel of fg (the clamp compares each field against fg's
field); the analogous bound against bg can fail when a lower channel's
carry propagates into the next field. -/
theorem additive_fg_bound (fg bg : Nat) :
    fg / 2048 % 32 ≤ Effects.additive 0 0 fg bg / 2048 % 32 ∧
    fg / 32 % 64 ≤ Effects.additive 0 0 fg bg / 32 % 64 ∧
    fg % 32 ≤ Effects.additive 0 0 fg bg % 32 := by
  simp only [Effects.additive, and_F800, and_07E0, and_1F]
  by_cases h1 : (fg + bg) % 65536 / 2048 % 32 * 2048 < fg / 2048 % 32 * 2048 <;>
    by_cases h2 : (fg + bg) % 65536 / 32 % 64 * 32 < fg / 32 % 64 * 32 <;>
      by_cases h3 : (fg + bg) % 65536 % 32 < fg % 32 <;>
        simp only [h1, h2, h3, if_true, if_false] <;>
          (try rw [show (63488 : Nat) = 31 * 2048 by norm_num]) <;>
          (try rw [show (2016 : Nat) = 63 * 32 by norm_num]) <;>
          rw [pack_or _ _ _ (by omega) (by omega)] <;>
          omega

/-- Bundle of the C7 round-trip properties for one packed color. -/
abbrev RoundTripOk (c : Nat) : Prop :=
  pack_to_16 (rgb565_to_color c) = c ∧
  (c / 2048 % 32 = 31 → (rgb565_to_color c).r = 255) ∧
  (c / 2048 % 32 = 0 → (rgb565_to_color c).r = 0) ∧
  (c / 32 % 64 = 63 → (rgb565_to_color c).g = 255) ∧
  (c / 32 % 64 = 0 → (rgb565_to_color c).g = 0) ∧
  (c % 32 = 31 → (rgb565_to_color c).b = 255) ∧
  (c % 32 = 0 → (rgb565_to_color c).b = 0)

/-- C7: expanding the 5/6/5 fields of any 16-bit packed color by bit
replication and truncating back reproduces the color exactly; a
maximum-valued field expands to 255 and a zero field to 0. -/
theorem rgb565_roundtrip : ∀ c : Nat, c < 65536 → RoundTripOk c := by
  have rep5 : ∀ v : Nat, v < 32 →
      ((v <<< 3) ||| (v >>> 2)) >>> 3 = v ∧
      (v = 31 → (v <<< 3) ||| (v >>> 2) = 255) ∧
      (v = 0 → (v <<< 3) ||| (v >>> 2) = 0) := by decide
  have rep6 : ∀ v : Nat, v < 64 →
      ((v <<< 2) ||| (v >>> 4)) >>> 2 = v ∧
      (v = 63 → (v <<< 2) ||| (v >>> 4) = 255) ∧
      (v = 0 → (v <<< 2) ||| (v >>> 4) = 0) := by decide
  intro c hc
  obtain ⟨h5r, h5rmax, h5rzero⟩ := rep5 (c / 2048 % 32) (by omega)
  obtain ⟨h6g, h6gmax, h6gzero⟩ := rep6 (c / 32 % 64) (by omega)
  obtain ⟨h5b, h5bmax, h5bzero⟩ := rep5 (c % 32) (by omega)
  simp only [RoundTripOk, rgb565_to_color, pack_to_16]
  simp only [extractR, extractG]
  simp only [and_1F]
  refine ⟨?_, h5rmax, h5rzero, h6gmax, h6gzero, h5bmax, h5bzero⟩
  rw [h5r, h6g, h5b, shl11, shl5, pack_or _ _ _ (by omega) (by omega)]
  omega

/-- C7 witness: the round trip at the concrete color 0xF81F. -/
theorem rgb565_roundtrip_witness : (63519 : Nat) < 65536 ∧ RoundTripOk 63519 :=
  ⟨by decide, rgb565_roundtrip 63519 (by decide)⟩

/-- C8: evaluation of the embedded grayscale at the failing input
intensity = 0, bg = 0xF800.  The claim (and the source's own doc comment)
say intensity = 0 is a no-op returning the input color; because of the
`if (intensity = 255)` assignment-instead-of-comparison the code
unconditionally returns the luminance-gray color 0x31A6 instead, for every
intensity value. -/
theorem grayscale_assignment_bug_eval :
    Effects.grayscale 0 63488 0 = 12710 ∧ (12710 : Nat) ≠ 63488 ∧
    Effects.grayscale 0 63488 255 = 12710 := by
  decide

/-! ### Snapshot / stream encoder (DisplayStream, src/unnamed/part_000)

The encoder's mutable fields become an explicit state record; the bytes
handed to the send callback are modelled by the (offset, length) of the
slice the source passes, since the callback receives a pointer into either
the synthesized header or the snapshot buffer. -/

structure StreamState where
  width : Nat
  height : Nat
  bufferLength : Nat
  maxChunkSize : Nat
  hasSnapshot : Bool
  currentPos : Nat
  headerSent : Bool
  isStreaming : Bool
deriving DecidableEq

/-- DisplayStream constructor: caches width/height and fixes
`buffer_length_ = width * height * 2`; no snapshot allocated yet. -/
def mkDisplayStream (w h maxChunk : Nat) : StreamState :=
  { width := w, height := h, bufferLength := w * h * 2, maxChunkSize := maxChunk,
    hasSnapshot := false, currentPos := 0, headerSent := false, isStreaming := false }

def TOTAL_HEADER_SIZE : Nat := 14 + 40 + 12

/-- The 54-byte BMP header record (BMPHeader + DIBHeader + RGB565Masks),
with the fixed default field values of the packed structs. -/
structure FullBMPHeader where
  magic : Nat
  fileSize : Nat
  reserved : Nat
  offset : Nat
  dibSize : Nat
  width : Int
  height : Int
  planes : Nat
  bitCount : Nat
  compression : Nat
  imageSize : Nat
  xPpm : Int
  yPpm : Int
  colorsUsed : Nat
  colorsImportant : Nat
  maskRed : Nat
  maskGreen : Nat
  maskBlue : Nat
deriving DecidableEq

/-- DisplayStream::get_bmp_header: fills the runtime fields
(fileSize, offset, width, negated height, imageSize) over the struct
defaults and returns the 54-byte block. -/
def get_bmp_header (s : StreamState) : FullBMPHeader :=
  { magic := 0x4D42, fileSize := TOTAL_HEADER_SIZE + s.bufferLength, reserved := 0,
    offset := TOTAL_HEADER_SIZE, dibSize := 40, width := (s.width : Int),
    height := -(s.height : Int), planes := 1, bitCount := 16, compression := 3,
    imageSize := s.bufferLength, xPpm := 2835, yPpm := 2835, colorsUsed := 0,
    colorsImportant := 0, maskRed := 0xF800, maskGreen := 0x07E0, maskBlue := 0x001F }

/-- DisplayStream::take_snapshot: fails when no source buffer bytes are
configured; otherwise allocates the snapshot once (idempotent) and copies
and byte-swaps the framebuffer.  Allocation success is assumed; an
out-of-memory failure is outside the state machine modelled here. -/
def take_snapshot (s : StreamState) : StreamState × Bool :=
  if s.bufferLength = 0 then (s, false)
  else ({ s with hasSnapshot := true }, true)

/-- One emission handed to the send callback: either the 54-byte header or
a pixel-data slice `[offset, offset+size)` of the snapshot buffer. -/
inductive ChunkEmission where
  | header (size : Nat)
  | pixels (offset size : Nat)
deriving DecidableEq

/-- DisplayStream::get_bmp_chunk: returns the updated state, the bool the
source returns (true = caller keeps iterating), and what was emitted. -/
def get_bmp_chunk (s : StreamState) : StreamState × Bool × Option ChunkEmission :=
  if !s.headerSent then
    ({ s with headerSent := true }, true, some (.header TOTAL_HEADER_SIZE))
  else if s.bufferLength ≤ s.currentPos then
    ({ s with isStreaming := false }, false, none)
  else if !s.hasSnapshot then
    (s, true, none)
  else
    let remaining := s.bufferLength - s.currentPos
    let actual_chunk_size := min remaining s.maxChunkSize
    ({ s with currentPos := s.currentPos + actual_chunk_size },
      decide (s.currentPos + actual_chunk_size < s.bufferLength),
      some (.pixels s.currentPos actual_chunk_size))

def start_streaming (s : StreamState) : StreamState :=
  { s with isStreaming := true, headerSent := false, currentPos := 0 }

def is_streaming (s : StreamState) : Bool := s.isStreaming

def needs_snapshot (s : StreamState) : Bool := s.isStreaming && !s.hasSnapshot

def get_file_size (s : StreamState) : Nat := TOTAL_HEADER_SIZE + s.bufferLength

/-- C4 counterexample: running the exact claimed scenario (2304-byte
source, chunk limit 1000) refutes two conjuncts of the claim.  First, the
header handed to the sink is 66 bytes (TOTAL_HEADER_SIZE = 14 + 40 + 12),
not 54.  Second, the call that emits the final 304-byte chunk returns done
(false) but leaves the streaming flag TRUE: `is_streaming_` is only reset
by a later call that finds the cursor already at the end. -/
theorem streaming_scenario_counterexample :
    let s0 := start_streaming (mkDisplayStream 24 48 1000)
    let c1 := get_bmp_chunk s0
    let t := take_snapshot c1.1
    let k1 := get_bmp_chunk t.1
    let k2 := get_bmp_chunk k1.1
    let k3 := get_bmp_chunk k2.1
    c1.2.2 = some (.header 66) ∧ some (ChunkEmission.header 66) ≠ some (.header 54) ∧
    k3.2.2 = some (.pixels 2000 304) ∧ k3.2.1 = false ∧
    is_streaming k3.1 = true := by
  decide

/-- C4 (amended): the full streaming scenario as the code actually behaves.
After start_streaming on a 2304-byte source with chunk limit 1000: the
first call hands over exactly the 66-byte header (14 + 40 + 12 bytes, not
54 as claimed) and reports more-pending; while no snapshot exists further
calls report more-pending without emitting or advancing; after a
successful take_snapshot the next calls emit pixel slices of sizes 1000,
1000, 304 at offsets 0, 1000, 2000 with cursor values 1000, 2000, 2304;
the call emitting the final 304 bytes reports done but leaves the
streaming flag set, and the NEXT call reports done again and resets the
streaming flag to inactive. -/
theorem streaming_scenario_amended :
    (start_streaming (mkDisplayStream 24 48 1000)).bufferLength = 2304 ∧
    let s0 := start_streaming (mkDisplayStream 24 48 1000)
    let c1 := get_bmp_chunk s0
    let w1 := get_bmp_chunk c1.1
    let t := take_snapshot w1.1
    let k1 := get_bmp_chunk t.1
    let k2 := get_bmp_chunk k1.1
    let k3 := get_bmp_chunk k2.1
    let k4 := get_bmp_chunk k3.1
    (s0.currentPos = 0 ∧ is_streaming s0 = true) ∧
    (c1.2.2 = some (.header 66) ∧ c1.2.1 = true ∧ c1.1.currentPos = 0) ∧
    (w1.2.2 = none ∧ w1.2.1 = true ∧ w1.1 = c1.1) ∧
    (t.2 = true) ∧
    (k1.2.2 = some (.pixels 0 1000) ∧ k1.2.1 = true ∧ k1.1.currentPos = 1000) ∧
    (k2.2.2 = some (.pixels 1000 1000) ∧ k2.2.1 = true ∧ k2.1.currentPos = 2000) ∧
    (k3.2.2 = some (.pixels 2000 304) ∧ k3.2.1 = false ∧ k3.1.currentPos = 2304 ∧
      is_streaming k3.1 = true) ∧
    (k4.2.2 = none ∧ k4.2.1 = false ∧ is_streaming k4.1 = false) := by
  decide

/-- C9 counterexample: the header block is 14 + 40 + 12 = 66 bytes, so for
172 x 320 the pixel-data offset field is 66 (not 54) and the total file
size field is 110080 + 66 = 110146 (not 110134). -/
theorem bmp_header_fields_counterexample :
    (get_bmp_header (mkDisplayStream 172 320 1000)).offset = 66 ∧ (66 : Nat) ≠ 54 ∧
    (get_bmp_header (mkDisplayStream 172 320 1000)).fileSize = 110146 ∧
    (110146 : Nat) ≠ 110134 := by
  decide

/-- C9 (amended): for runtime dimensions 172 x 320 the generated 66-byte
header has width 172, height -320, pixel-data size 110080 = 172*320*2,
total file size 110146 = 110080 + 66 and pixel-data offset 66. -/
theorem bmp_header_fields :
    (get_bmp_header (mkDisplayStream 172 320 1000)).width = 172 ∧
    (get_bmp_header (mkDisplayStream 172 320 1000)).height = -320 ∧
    (get_bmp_header (mkDisplayStream 172 320 1000)).imageSize = 110080 ∧
    (get_bmp_header (mkDisplayStream 172 320 1000)).fileSize = 110146 ∧
    (get_bmp_header (mkDisplayStream 172 320 1000)).offset = 66 := by
  decide

/-! ### Pipeline engine (GfxBlend, gfx_blend.h / defs.h)

A pipeline step wraps a blend function together with the compile-time
introspection facts about its C++ effect type:

* `read_bg : Option Bool` — whether the type declares
  `static constexpr bool read_bg` and its value
  (checked by the value requirement on EffectDef::read_bg in
  add_step_internal_);
* `use_bg_as_source : Option Bool` — likewise for
  `static constexpr bool use_bg_as_source`;
* `has_use_bg_as_source_typename : Bool` — whether the type declares a
  nested TYPE named use_bg_as_source.  GenericEffect::blend tests the
  requires-clause on `typename EffectDef::use_bg_as_source`, which is a
  type requirement: a static bool member does NOT satisfy it. -/

structure Step where
  func : BlendFn
  read_bg : Option Bool
  use_bg_as_source : Option Bool
  has_use_bg_as_source_typename : Bool

/-- GenericEffect::blend: the bg-override branch fires only on the nested
TYPE member, never on the documented static bool flag. -/
def blend (st : Step) (x y : Int) (fg bg : Nat) : Nat :=
  if st.has_use_bg_as_source_typename then st.func x y bg bg else st.func x y fg bg

/-- GfxBlend's pipeline state: the ordered step list plus the two derived
flags (member initializers: read_bg_ = true, use_bg_as_source_ = false). -/
structure GfxState where
  pipeline : List Step
  read_bg : Bool
  use_bg_as_source : Bool

/-- The freshly constructed GfxBlend state. -/
def initGfx : GfxState := { pipeline := [], read_bg := true, use_bg_as_source := false }

/-- GfxBlend::clear: empties the pipeline and restores both flag
defaults. -/
def clear (s : GfxState) : GfxState :=
  { pipeline := [], read_bg := true, use_bg_as_source := false }

/-- GfxBlend::add_step_internal_: first the optional read_bg optimization
flag (acts exactly when the member is declared with value false, disabling
the background read), then the optional use_bg_as_source flag (acts
exactly when the member is declared with value true: sets the functional
flag and reverts a possible read-suppression), then push_back. -/
def add_step_internal_ (s : GfxState) (st : Step) : GfxState :=
  let s1 := if st.read_bg = some false then { s with read_bg := false } else s
  let s2 := if st.use_bg_as_source = some true then
    { s1 with use_bg_as_source := true, read_bg := true } else s1
  { s2 with pipeline := s2.pipeline ++ [st] }

theorem add_step_pipeline (s : GfxState) (st : Step) :
    (add_step_internal_ s st).pipeline = s.pipeline ++ [st] := by
  simp only [add_step_internal_]
  split_ifs <;> rfl

theorem add_step_use_bg (s : GfxState) (st : Step) :
    (add_step_internal_ s st).use_bg_as_source =
      (s.use_bg_as_source || decide (st.use_bg_as_source = some true)) := by
  simp only [add_step_internal_]
  split_ifs <;> simp_all

theorem add_step_read_bg (s : GfxState) (st : Step) :
    (add_step_internal_ s st).read_bg =
      if st.use_bg_as_source = some true then true
      else if st.read_bg = some false then false
      else s.read_bg := by
  simp only [add_step_internal_]
  split_ifs <;> simp_all

/-- GfxBlend::apply_pipeline: left fold over the steps; each step's output
becomes the next step's incoming color, position and the original
background are passed unchanged. -/
def apply_pipeline (s : GfxState) (x y : Int) (fg bg : Nat) : Nat :=
  s.pipeline.foldl (fun current_fg st => blend st x y current_fg bg) fg

/-- The pipeline_blender closure built in GfxShapes::draw_generic: read the
background only when the read_bg flag is set, substitute it for the
incoming color at the START of the chain when the pipeline-level
use_bg_as_source flag is set, then run the chain. -/
def pipeline_blender (s : GfxState) (read_pixel : Int → Int → Nat) (x y : Int) (fg : Nat) : Nat :=
  if s.read_bg then
    let bg := read_pixel x y
    let fg2 := if s.use_bg_as_source then bg else fg
    apply_pipeline s x y fg2 bg
  else
    apply_pipeline s x y fg 0

/-- BgAsSourceWrapper over a single effect (defs.h): the wrapper's own
operator() substitutes bg for the incoming color of the wrapped effect.
Its static member is `use_bg_as_source = false` (sic) and it declares no
nested type, so neither introspection site sees an active flag. -/
def bgAsSourceStep (f : BlendFn) : Step :=
  { func := fun x y fg bg => f x y bg bg,
    read_bg := none, use_bg_as_source := some false,
    has_use_bg_as_source_typename := false }

/-- NoBgWrapper over a single effect (defs.h): passes the call through
unchanged and declares `static constexpr bool read_bg = false`. -/
def noBgStep (f : BlendFn) : Step :=
  { func := f, read_bg := some false, use_bg_as_source := none,
    has_use_bg_as_source_typename := false }

/-- A user effect following the documented flagging idiom of
add_step_internal_ (`static constexpr bool use_bg_as_source = true;`),
whose function simply reports the incoming color it receives — the probe
transform of spec section 8. -/
def probeStep : Step :=
  { func := fun _x _y fg _bg => fg,
    read_bg := none, use_bg_as_source := some true,
    has_use_bg_as_source_typename := false }

/-- Effects::inverse as an unflagged pipeline step. -/
def inverseStep : Step :=
  { func := Effects.inverse, read_bg := none, use_bg_as_source := none,
    has_use_bg_as_source_typename := false }

/-- C1: in the two-step pipeline [inverse, probe] whose second step is
flagged use_bg_as_source = true, the probe returns the incoming color it
was given.  Applying the pipeline at fg = 0, bg = 0x1234 yields 0xFFFF —
the first step's output — not 0x1234: the type-requirement in
GenericEffect::blend never matches the static bool flag, so the flagged
step receives the fold-propagated value.  On the draw path the pipeline
-level flag instead substitutes bg at the CHAIN START: the probe then
reports 0xEDCB = inverse(0x1234), still not the original background. -/
theorem flagged_step_receives_fold_value :
    apply_pipeline (add_step_internal_ (add_step_internal_ initGfx inverseStep) probeStep)
        0 0 0 4660 = 65535 ∧
    (65535 : Nat) ≠ 4660 ∧
    pipeline_blender (add_step_internal_ (add_step_internal_ initGfx inverseStep) probeStep)
        (fun _ _ => 4660) 0 0 0 = 60875 ∧
    (60875 : Nat) ≠ 4660 := by
  refine ⟨rfl, by decide, rfl, by decide⟩

/-- C2 counterexample: two concrete refutations of the flag-dynamics
claim.  (a) Adding a step through the bg_as_source wrapper leaves
background_as_source = false (the wrapper's static constant is false), so
the wrapper does not set the flag.  (b) Adding a use_bg_as_source = true
step and then a needs-no-bg step leaves background_as_source = true with
read_background = false: the claimed invariant
(background_as_source implies read_background) is broken by the second
addition, and read_background, once driven true by the first step, was
reset by a later one. -/
theorem flag_dynamics_counterexample :
    (add_step_internal_ initGfx (bgAsSourceStep Effects.inverse)).use_bg_as_source = false ∧
    (add_step_internal_ initGfx (bgAsSourceStep Effects.inverse)).read_bg = true ∧
    (add_step_internal_ (add_step_internal_ initGfx probeStep)
        (noBgStep Effects.inverse)).use_bg_as_source = true ∧
    (add_step_internal_ (add_step_internal_ initGfx probeStep)
        (noBgStep Effects.inverse)).read_bg = false := by
  refine ⟨rfl, rfl, rfl, rfl⟩

/-- C2 (amended): the flag dynamics the code actually implements.
background_as_source is monotone: once true it survives every later step
addition and is reset only by clear().  Adding a step whose static
use_bg_as_source flag is true sets both derived flags at that moment, so
the implication holds immediately afterwards — but read_background is
last-writer-wins (a later needs-no-bg step resets it to false), so the
implication need not persist.  Adding a step through the bg_as_source
wrapper (whose static flag is false) changes neither derived flag.
clear() restores read_background = true, background_as_source = false. -/
theorem flag_dynamics_amended (s : GfxState) (st : Step) (steps : List Step) (f : BlendFn) :
    (s.use_bg_as_source = true → (steps.foldl add_step_internal_ s).use_bg_as_source = true) ∧
    (st.use_bg_as_source = some true →
      (add_step_internal_ s st).use_bg_as_source = true ∧ (add_step_internal_ s st).read_bg = true) ∧
    ((add_step_internal_ s (bgAsSourceStep f)).read_bg = s.read_bg ∧
      (add_step_internal_ s (bgAsSourceStep f)).use_bg_as_source = s.use_bg_as_source) ∧
    ((clear s).read_bg = true ∧ (clear s).use_bg_as_source = false) := by
  refine ⟨?_, ?_, ⟨?_, ?_⟩, ⟨rfl, rfl⟩⟩
  · intro hs
    induction steps generalizing s with
    | nil => exact hs
    | cons st0 rest ih =>
      apply ih
      rw [add_step_use_bg, hs]
      simp
  · intro hub
    rw [add_step_use_bg, add_step_read_bg]
    simp [hub]
  · rw [add_step_read_bg]
    simp [bgAsSourceStep]
  · rw [add_step_use_bg]
    simp [bgAsSourceStep]

/-- C2 amended witness: the theorem instantiated at concrete states and
steps, discharging both hypotheses. -/
theorem flag_dynamics_amended_witness :
    (([noBgStep Effects.inverse].foldl add_step_internal_
        (add_step_internal_ initGfx probeStep)).use_bg_as_source = true) ∧
    ((add_step_internal_ initGfx probeStep).use_bg_as_source = true ∧
      (add_step_internal_ initGfx probeStep).read_bg = true) :=
  ⟨(flag_dynamics_amended (add_step_internal_ initGfx probeStep) probeStep
      [noBgStep Effects.inverse] Effects.inverse).1 rfl,
   (flag_dynamics_amended initGfx probeStep [] Effects.inverse).2.1 rfl⟩

/-! ### Pipeline configuration (GfxBlend::with overloads)

Both with() overloads start with `this->clear()`, then add every supplied
effect; in scoped mode (trailing callable) they run the draw and clear
again, in setter mode they leave the configured pipeline in place.
Drawing mutates only the framebuffer, never the pipeline state, so the
state after a call is fully captured below. -/

def with_setter (s : GfxState) (steps : List Step) : GfxState :=
  steps.foldl add_step_internal_ (clear s)

def with_scoped (s : GfxState) (steps : List Step) : GfxState :=
  clear (steps.foldl add_step_internal_ (clear s))

/-- C10: every with() call clears the previous pipeline and flag state
before installing the new steps: the resulting state never depends on the
pre-existing configuration, so successive setter-mode configurations
replace one another rather than accumulate, and a scoped call leaves the
cleared default state behind. -/
theorem with_replaces_configuration (s t : GfxState) (steps prev : List Step) :
    with_setter (with_setter s prev) steps = with_setter t steps ∧
    with_setter s steps = steps.foldl add_step_internal_ initGfx ∧
    (with_setter s steps).pipeline.length = steps.length ∧
    with_scoped s steps = initGfx := by
  have hlen : ∀ (l : List Step) (u : GfxState),
      (l.foldl add_step_internal_ u).pipeline.length = u.pipeline.length + l.length := by
    intro l
    induction l with
    | nil => intro u; simp
    | cons st0 rest ih =>
      intro u
      have hstep : (add_step_internal_ u st0).pipeline.length = u.pipeline.length + 1 := by
        rw [add_step_pipeline]
        simp
      simp only [List.foldl_cons, ih, hstep, List.length_cons]
      omega
  refine ⟨rfl, rfl, ?_, rfl⟩
  have h := hlen steps (clear s)
  simpa [with_setter, clear] using h

/-! ### Rounded-rectangle fill (GfxShapes::filled_round_rectangle, proxy.cpp)

Every primitive the algorithm emits is an `it.filled_rectangle(x, y, w, h)`
call; the emission sequence is modelled as the list of those rectangles, in
source order.  A pixel is covered by a rectangle when it lies in the
half-open box the primitive fills. -/

structure Rect where
  x : Int
  y : Int
  w : Int
  h : Int
deriving DecidableEq

/-- Pixel (px, py) lies inside the half-open box of the primitive. -/
def Rect.memB (rc : Rect) (px py : Int) : Bool :=
  decide (rc.x ≤ px ∧ px < rc.x + rc.w ∧ rc.y ≤ py ∧ py < rc.y + rc.h)

/-- Number of emitted draw calls that write pixel (px, py). -/
def covCount (rs : List Rect) (px py : Int) : Nat :=
  rs.countP (fun rc => rc.memB px py)

/-- The inner `for (dx = 0; dx < r; dx++)` search of the corner scanline:
return the first dx whose circle test
`dx_dist * dx_dist + dy2 <= r2` passes (the loop breaks there), with the
remaining iteration count as fuel. -/
def cornerScanFrom (r2 dy2 r : Int) (dx : Int) : Nat → Option Int
  | 0 => none
  | k + 1 =>
    if (r - dx - 1) * (r - dx - 1) + dy2 ≤ r2 then some dx
    else cornerScanFrom r2 dy2 r (dx + 1) k

/-- The full inner search for corner row dy: dx runs over [0, r). -/
def cornerScan (r dy : Int) : Option Int :=
  cornerScanFrom (r * r) ((r - dy - 1) * (r - dy - 1)) r 0 r.toNat

/-- The four one-pixel-high scanline rectangles emitted for corner row dy
once the search hits at dx (top-left, top-right, bottom-left,
bottom-right); nothing is emitted if the search never hits. -/
def cornerRects (x y w h r dy : Int) : List Rect :=
  match cornerScan r dy with
  | none => []
  | some dx =>
    [⟨x + dx, y + dy, r - dx, 1⟩,
     ⟨x + w - r, y + dy, r - dx, 1⟩,
     ⟨x + dx, y + h - 1 - dy, r - dx, 1⟩,
     ⟨x + w - r, y + h - 1 - dy, r - dx, 1⟩]

/-- The outer `for (dy = 0; dy < r; dy++)` corner loop, in emission
order. -/
def cornerLoop (x y w h r : Int) : Nat → List Rect
  | 0 => []
  | n + 1 => cornerLoop x y w h r n ++ cornerRects x y w h r (n : Int)

/-- The radius clamp: `max_r = (w < h ? w : h) >> 1; if (r > max_r)
r = max_r;` (an arithmetic shift equals division by two on the nonnegative
values in scope). -/
def clampedR (w h r : Int) : Int :=
  if r > (if w < h then w else h) / 2 then (if w < h then w else h) / 2 else r

/-- GfxShapes::filled_round_rectangle as its emission sequence: for
r <= 0 a single plain rectangle; otherwise the clamped radius r is used to
emit the middle band, the top bar, the bottom bar, then the corner
scanlines. -/
def filled_round_rectangle (x y w h r0 : Int) : List Rect :=
  if r0 ≤ 0 then [⟨x, y, w, h⟩]
  else
    [⟨x, y + clampedR w h r0, w, h - 2 * clampedR w h r0⟩,
     ⟨x + clampedR w h r0, y, w - 2 * clampedR w h r0, clampedR w h r0⟩,
     ⟨x + clampedR w h r0, y + h - clampedR w h r0, w - 2 * clampedR w h r0, clampedR w h r0⟩] ++
    cornerLoop x y w h (clampedR w h r0) (clampedR w h r0).toNat

/-- One corner of the filled region is cut away at relative offsets (a, b)
from that corner (a, b counted inward) exactly when both offsets are
inside the corner square and the source's circle membership test fails. -/
abbrev cornerCut (r a b : Int) : Prop :=
  a < r ∧ b < r ∧ r * r < (r - a - 1) * (r - a - 1) + (r - b - 1) * (r - b - 1)

/-- The filled region of the rounded rectangle, in coordinates relative to
the top-left corner: inside the w x h box and not cut away by any of the
four corner circles (the same membership test the corner scanlines use,
mirrored for the right and bottom corners). -/
abbrev inRoundRect (w h r dx dy : Int) : Prop :=
  0 ≤ dx ∧ dx < w ∧ 0 ≤ dy ∧ dy < h ∧
  ¬cornerCut r dx dy ∧ ¬cornerCut r (w - 1 - dx) dy ∧
  ¬cornerCut r dx (h - 1 - dy) ∧ ¬cornerCut r (w - 1 - dx) (h - 1 - dy)

/-- If the scan exhausts its fuel, the circle test fails on every scanned
column. -/
theorem cornerScanFrom_none (r2 dy2 r : Int) :
    ∀ (k : Nat) (dx0 e : Int), cornerScanFrom r2 dy2 r dx0 k = none →
      dx0 ≤ e → e < dx0 + k → ¬((r - e - 1) * (r - e - 1) + dy2 ≤ r2) := by
  intro k
  induction k with
  | zero =>
    intro dx0 e _ he1 he2
    omega
  | succ k ih =>
    intro dx0 e hnone he1 he2
    simp only [cornerScanFrom] at hnone
    by_cases hc : (r - dx0 - 1) * (r - dx0 - 1) + dy2 ≤ r2
    · rw [if_pos hc] at hnone
      exact absurd hnone (by simp)
    · rw [if_neg hc] at hnone
      by_cases he : e = dx0
      · subst he
        exact hc
      · exact ih (dx0 + 1) e hnone (by omega) (by omega)

/-- If the scan returns a hit, it is the first column passing the circle
test, it lies in the scanned range, and every earlier column fails. -/
theorem cornerScanFrom_some (r2 dy2 r : Int) :
    ∀ (k : Nat) (dx0 d : Int), cornerScanFrom r2 dy2 r dx0 k = some d →
      dx0 ≤ d ∧ d < dx0 + k ∧ ((r - d - 1) * (r - d - 1) + dy2 ≤ r2) ∧
      ∀ e : Int, dx0 ≤ e → e < d → ¬((r - e - 1) * (r - e - 1) + dy2 ≤ r2) := by
  intro k
  induction k with
  | zero =>
    intro dx0 d hsome
    exact absurd hsome (by simp [cornerScanFrom])
  | succ k ih =>
    intro dx0 d hsome
    simp only [cornerScanFrom] at hsome
    by_cases hc : (r - dx0 - 1) * (r - dx0 - 1) + dy2 ≤ r2
    · rw [if_pos hc] at hsome
      have hd : d = dx0 := by
        injection hsome with h
        omega
      subst hd
      exact ⟨le_refl d, by omega, hc, fun e he1 he2 => by omega⟩
    · rw [if_neg hc] at hsome
      obtain ⟨h1, h2, h3, h4⟩ := ih (dx0 + 1) d hsome
      refine ⟨by omega, by omega, h3, ?_⟩
      intro e he1 he2
      by_cases he : e = dx0
      · subst he
        exact hc
      · exact h4 e (by omega) he2

/-- For every corner row 0 <= i < r the scan succeeds, and its hit column d
characterizes the circle test on the whole row: a scanned column passes the
test exactly when it is at or beyond d. -/
theorem cornerScan_spec (r i : Int) (hr : 1 ≤ r) (h0 : 0 ≤ i) (hir : i < r) :
    ∃ d, cornerScan r i = some d ∧ 0 ≤ d ∧ d < r ∧
      ∀ a : Int, 0 ≤ a → a < r →
        (((r - a - 1) * (r - a - 1) + (r - i - 1) * (r - i - 1) ≤ r * r) ↔ d ≤ a) := by
  have hlast : (r - (r - 1) - 1) * (r - (r - 1) - 1) + (r - i - 1) * (r - i - 1) ≤ r * r := by
    have hz : r - (r - 1) - 1 = 0 := by omega
    rw [hz]
    have hm := mul_self_le_mul_self (a := r - i - 1) (b := r) (by omega) (by omega)
    linarith
  cases hsc : cornerScan r i with
  | none =>
    exfalso
    simp only [cornerScan] at hsc
    exact cornerScanFrom_none (r * r) ((r - i - 1) * (r - i - 1)) r r.toNat 0 (r - 1) hsc
      (by omega) (by omega) hlast
  | some d =>
    have hsc' := hsc
    simp only [cornerScan] at hsc'
    obtain ⟨h1, h2, h3, h4⟩ :=
      cornerScanFrom_some (r * r) ((r - i - 1) * (r - i - 1)) r r.toNat 0 d hsc'
    refine ⟨d, rfl, by omega, by omega, ?_⟩
    intro a ha0 har
    constructor
    · intro hPa
      by_contra hlt
      exact h4 a (by omega) (by omega) hPa
    · intro hda
      have hm : (r - a - 1) * (r - a - 1) ≤ (r - d - 1) * (r - d - 1) :=
        mul_self_le_mul_self (by omega) (by omega)
      linarith

/-- If every corner row's emission misses the pixel, the whole corner loop
does. -/
theorem countP_cornerLoop_zero (x y w h r : Int) (p : Rect → Bool) :
    ∀ n : Nat, (∀ i : Nat, i < n → (cornerRects x y w h r (i : Int)).countP p = 0) →
      (cornerLoop x y w h r n).countP p = 0 := by
  intro n
  induction n with
  | zero => intro _; simp [cornerLoop]
  | succ n ih =>
    intro hall
    simp only [cornerLoop, List.countP_append]
    rw [ih (fun i hi => hall i (by omega)), hall n (by omega)]

/-- If exactly one corner row can touch the pixel, the loop's count is that
row's count. -/
theorem countP_cornerLoop_single (x y w h r : Int) (p : Rect → Bool) :
    ∀ (n t : Nat), t < n →
      (∀ i : Nat, i < n → i ≠ t → (cornerRects x y w h r (i : Int)).countP p = 0) →
      (cornerLoop x y w h r n).countP p = (cornerRects x y w h r (t : Int)).countP p := by
  intro n
  induction n with
  | zero =>
    intro t ht _
    omega
  | succ n ih =>
    intro t ht hoff
    simp only [cornerLoop, List.countP_append]
    by_cases htn : t = n
    · subst htn
      rw [countP_cornerLoop_zero x y w h r p _ (fun i hi => hoff i (by omega) (by omega))]
      omega
    · rw [ih t (by omega) (fun i hi hne => hoff i (by omega) hne),
        hoff n (by omega) (fun he => htn he.symm)]
      omega

/-- On a top corner row (0 <= dy < r) the filled region is exactly the
column interval [d, w - d), where d is the scan hit of that row. -/
theorem region_row_top (w h r dx dy d : Int) (hr : 1 ≤ r) (hw : 2 * r ≤ w) (hh : 2 * r ≤ h)
    (hdy0 : 0 ≤ dy) (hdyr : dy < r) (hd0 : 0 ≤ d) (hdr : d < r)
    (hchar : ∀ a : Int, 0 ≤ a → a < r →
      (((r - a - 1) * (r - a - 1) + (r - dy - 1) * (r - dy - 1) ≤ r * r) ↔ d ≤ a)) :
    inRoundRect w h r dx dy ↔ (d ≤ dx ∧ dx < w - d) := by
  constructor
  · rintro ⟨h1, h2, h3, h4, hTL, hTR, hBL, hBR⟩
    rcases lt_or_le dx r with hc | hc
    · have hP : (r - dx - 1) * (r - dx - 1) + (r - dy - 1) * (r - dy - 1) ≤ r * r := by
        by_contra hnp
        exact hTL ⟨hc, hdyr, not_le.mp hnp⟩
      have := (hchar dx h1 hc).mp hP
      omega
    · rcases lt_or_le dx (w - r) with hc2 | hc2
      · omega
      · have hP : (r - (w - 1 - dx) - 1) * (r - (w - 1 - dx) - 1)
            + (r - dy - 1) * (r - dy - 1) ≤ r * r := by
          by_contra hnp
          exact hTR ⟨by omega, hdyr, not_le.mp hnp⟩
        have := (hchar (w - 1 - dx) (by omega) (by omega)).mp hP
        omega
  · rintro ⟨hd1, hd2⟩
    refine ⟨by omega, by omega, by omega, by omega, ?_, ?_, ?_, ?_⟩
    · rintro ⟨hc, _, hgt⟩
      exact absurd ((hchar dx (by omega) hc).mpr (by omega)) (not_le.mpr hgt)
    · rintro ⟨hc, _, hgt⟩
      exact absurd ((hchar (w - 1 - dx) (by omega) hc).mpr (by omega)) (not_le.mpr hgt)
    · rintro ⟨_, hb, _⟩
      omega
    · rintro ⟨_, hb, _⟩
      omega

/-- On a bottom corner row (h - r <= dy < h) the filled region is exactly
the column interval [d, w - d), where d is the scan hit of the mirrored row
h - 1 - dy. -/
theorem region_row_bot (w h r dx dy d : Int) (hr : 1 ≤ r) (hw : 2 * r ≤ w) (hh : 2 * r ≤ h)
    (hdy0 : h - r ≤ dy) (hdyh : dy < h) (hd0 : 0 ≤ d) (hdr : d < r)
    (hchar : ∀ a : Int, 0 ≤ a → a < r →
      (((r - a - 1) * (r - a - 1) + (r - (h - 1 - dy) - 1) * (r - (h - 1 - dy) - 1) ≤ r * r)
        ↔ d ≤ a)) :
    inRoundRect w h r dx dy ↔ (d ≤ dx ∧ dx < w - d) := by
  constructor
  · rintro ⟨h1, h2, h3, h4, hTL, hTR, hBL, hBR⟩
    rcases lt_or_le dx r with hc | hc
    · have hP : (r - dx - 1) * (r - dx - 1)
          + (r - (h - 1 - dy) - 1) * (r - (h - 1 - dy) - 1) ≤ r * r := by
        by_contra hnp
        exact hBL ⟨hc, by omega, not_le.mp hnp⟩
      have := (hchar dx h1 hc).mp hP
      omega
    · rcases lt_or_le dx (w - r) with hc2 | hc2
      · omega
      · have hP : (r - (w - 1 - dx) - 1) * (r - (w - 1 - dx) - 1)
            + (r - (h - 1 - dy) - 1) * (r - (h - 1 - dy) - 1) ≤ r * r := by
          by_contra hnp
          exact hBR ⟨by omega, by omega, not_le.mp hnp⟩
        have := (hchar (w - 1 - dx) (by omega) (by omega)).mp hP
        omega
  · rintro ⟨hd1, hd2⟩
    refine ⟨by omega, by omega, by omega, by omega, ?_, ?_, ?_, ?_⟩
    · rintro ⟨_, hb, _⟩
      omega
    · rintro ⟨_, hb, _⟩
      omega
    · rintro ⟨hc, _, hgt⟩
      exact absurd ((hchar dx (by omega) hc).mpr (by omega)) (not_le.mpr hgt)
    · rintro ⟨hc, _, hgt⟩
      exact absurd ((hchar (w - 1 - dx) (by omega) hc).mpr (by omega)) (not_le.mpr hgt)

/-- On a middle row (r <= dy < h - r) no corner cuts apply and the filled
region is the full width. -/
theorem region_row_mid (w h r dx dy : Int) (hr : 1 ≤ r) (hw : 2 * r ≤ w) (hh : 2 * r ≤ h)
    (hdy1 : r ≤ dy) (hdy2 : dy < h - r) :
    inRoundRect w h r dx dy ↔ (0 ≤ dx ∧ dx < w) := by
  constructor
  · rintro ⟨h1, h2, _, _, _, _, _, _⟩
    exact ⟨h1, h2⟩
  · rintro ⟨h1, h2⟩
    refine ⟨h1, h2, by omega, by omega, ?_, ?_, ?_, ?_⟩
    · rintro ⟨_, hb, _⟩
      omega
    · rintro ⟨_, hb, _⟩
      omega
    · rintro ⟨_, hb, _⟩
      omega
    · rintro ⟨_, hb, _⟩
      omega

/-- Core of C5: for a clamped radius 1 <= r with 2r <= w and 2r <= h, the
emission sequence (three bands plus the corner scanlines) covers every
pixel of the filled region exactly once and no pixel outside it. -/
theorem cover_core (x y w h r px py : Int) (hr : 1 ≤ r) (hw : 2 * r ≤ w) (hh : 2 * r ≤ h) :
    covCount
      ([⟨x, y + r, w, h - 2 * r⟩, ⟨x + r, y, w - 2 * r, r⟩, ⟨x + r, y + h - r, w - 2 * r, r⟩]
        ++ cornerLoop x y w h r r.toNat) px py
      = if inRoundRect w h r (px - x) (py - y) then 1 else 0 := by
  unfold covCount
  rw [List.countP_append]
  by_cases hout : py - y < 0 ∨ h ≤ py - y
  · -- pixel row outside the shape entirely
    have hrows : ∀ i : Nat, i < r.toNat →
        (cornerRects x y w h r (i : Int)).countP (fun rc => rc.memB px py) = 0 := by
      intro i hi
      cases hsci : cornerScan r (i : Int) with
      | none => simp [cornerRects, hsci]
      | some di =>
        simp only [cornerRects, hsci, List.countP_cons, List.countP_nil, Rect.memB,
          decide_eq_true_eq]
        split_ifs <;> omega
    rw [countP_cornerLoop_zero x y w h r _ r.toNat hrows]
    rw [if_neg (by rintro ⟨_, _, h3, h4, _, _, _, _⟩; omega)]
    simp only [List.countP_cons, List.countP_nil, Rect.memB, decide_eq_true_eq]
    split_ifs <;> omega
  push_neg at hout
  obtain ⟨hy0, hyh⟩ := hout
  by_cases hTop : py - y < r
  · -- top corner band
    obtain ⟨d, hscan, hd0, hdr, hchar⟩ := cornerScan_spec r (py - y) hr hy0 hTop
    have ht : (((py - y).toNat : Nat) : Int) = py - y := by omega
    have hrows : ∀ i : Nat, i < r.toNat → i ≠ (py - y).toNat →
        (cornerRects x y w h r (i : Int)).countP (fun rc => rc.memB px py) = 0 := by
      intro i hi hne
      cases hsci : cornerScan r (i : Int) with
      | none => simp [cornerRects, hsci]
      | some di =>
        simp only [cornerRects, hsci, List.countP_cons, List.countP_nil, Rect.memB,
          decide_eq_true_eq]
        split_ifs <;> omega
    rw [countP_cornerLoop_single x y w h r _ r.toNat (py - y).toNat (by omega) hrows, ht]
    have hbands : List.countP (fun rc => rc.memB px py)
        ([⟨x, y + r, w, h - 2 * r⟩, ⟨x + r, y, w - 2 * r, r⟩,
          ⟨x + r, y + h - r, w - 2 * r, r⟩] : List Rect)
        = (if r ≤ px - x ∧ px - x < w - r then 1 else 0) := by
      simp only [List.countP_cons, List.countP_nil, Rect.memB, decide_eq_true_eq]
      split_ifs <;> omega
    have hrowt : List.countP (fun rc : Rect => rc.memB px py) (cornerRects x y w h r (py - y))
        = (if d ≤ px - x ∧ px - x < r then 1 else 0)
          + (if w - r ≤ px - x ∧ px - x < w - d then 1 else 0) := by
      simp only [cornerRects, hscan, List.countP_cons, List.countP_nil, Rect.memB,
        decide_eq_true_eq]
      split_ifs <;> omega
    rw [hbands, hrowt]
    have hreg := region_row_top w h r (px - x) (py - y) d hr hw hh hy0 hTop hd0 hdr hchar
    simp only [hreg]
    split_ifs <;> omega
  by_cases hBot : h - r ≤ py - y
  · -- bottom corner band
    obtain ⟨d, hscan, hd0, hdr, hchar⟩ :=
      cornerScan_spec r (h - 1 - (py - y)) hr (by omega) (by omega)
    have ht : (((h - 1 - (py - y)).toNat : Nat) : Int) = h - 1 - (py - y) := by omega
    have hrows : ∀ i : Nat, i < r.toNat → i ≠ (h - 1 - (py - y)).toNat →
        (cornerRects x y w h r (i : Int)).countP (fun rc => rc.memB px py) = 0 := by
      intro i hi hne
      cases hsci : cornerScan r (i : Int) with
      | none => simp [cornerRects, hsci]
      | some di =>
        simp only [cornerRects, hsci, List.countP_cons, List.countP_nil, Rect.memB,
          decide_eq_true_eq]
        split_ifs <;> omega
    rw [countP_cornerLoop_single x y w h r _ r.toNat (h - 1 - (py - y)).toNat (by omega) hrows,
      ht]
    have hbands : List.countP (fun rc => rc.memB px py)
        ([⟨x, y + r, w, h - 2 * r⟩, ⟨x + r, y, w - 2 * r, r⟩,
          ⟨x + r, y + h - r, w - 2 * r, r⟩] : List Rect)
        = (if r ≤ px - x ∧ px - x < w - r then 1 else 0) := by
      simp only [List.countP_cons, List.countP_nil, Rect.memB, decide_eq_true_eq]
      split_ifs <;> omega
    have hrowt : List.countP (fun rc : Rect => rc.memB px py)
        (cornerRects x y w h r (h - 1 - (py - y)))
        = (if d ≤ px - x ∧ px - x < r then 1 else 0)
          + (if w - r ≤ px - x ∧ px - x < w - d then 1 else 0) := by
      simp only [cornerRects, hscan, List.countP_cons, List.countP_nil, Rect.memB,
        decide_eq_true_eq]
      split_ifs <;> omega
    rw [hbands, hrowt]
    have hreg := region_row_bot w h r (px - x) (py - y) d hr hw hh hBot hyh hd0 hdr hchar
    simp only [hreg]
    split_ifs <;> omega
  · -- middle band
    have hrows : ∀ i : Nat, i < r.toNat →
        (cornerRects x y w h r (i : Int)).countP (fun rc => rc.memB px py) = 0 := by
      intro i hi
      cases hsci : cornerScan r (i : Int) with
      | none => simp [cornerRects, hsci]
      | some di =>
        simp only [cornerRects, hsci, List.countP_cons, List.countP_nil, Rect.memB,
          decide_eq_true_eq]
        split_ifs <;> omega
    rw [countP_cornerLoop_zero x y w h r _ r.toNat hrows]
    have hreg := region_row_mid w h r (px - x) (py - y) hr hw hh (by omega) (by omega)
    simp only [List.countP_cons, List.countP_nil, Rect.memB, decide_eq_true_eq, hreg]
    split_ifs <;> omega

/-- A clamped radius of at least 1 forces a positive requested radius and
leaves room for both bars: twice the clamped radius fits in both sides. -/
theorem clampedR_facts (w h r0 : Int) (hr : 1 ≤ clampedR w h r0) :
    1 ≤ r0 ∧ 2 * clampedR w h r0 ≤ w ∧ 2 * clampedR w h r0 ≤ h := by
  unfold clampedR at hr ⊢
  by_cases hwh : w < h
  · simp only [if_pos hwh] at hr ⊢
    by_cases hc : r0 > w / 2
    · simp only [if_pos hc] at hr ⊢
      omega
    · simp only [if_neg hc] at hr ⊢
      omega
  · simp only [if_neg hwh] at hr ⊢
    by_cases hc : r0 > h / 2
    · simp only [if_pos hc] at hr ⊢
      omega
    · simp only [if_neg hc] at hr ⊢
      omega

/-- C5: for every rounded-rectangle fill whose clamped corner radius is at
least 1, the emitted primitive draw calls (three band rectangles plus the
per-scanline corner fills) write every pixel of the shape's filled region
exactly once: no coordinate is written twice and no pixel of the region is
omitted. -/
theorem roundRect_exact_cover (x y w h r0 px py : Int) (hr : 1 ≤ clampedR w h r0) :
    covCount (filled_round_rectangle x y w h r0) px py =
      if inRoundRect w h (clampedR w h r0) (px - x) (py - y) then 1 else 0 := by
  obtain ⟨hr0, hww, hhh⟩ := clampedR_facts w h r0 hr
  rw [filled_round_rectangle, if_neg (by omega)]
  exact cover_core x y w h (clampedR w h r0) px py hr hww hhh

/-- C5 witness: the coverage theorem at a concrete 9 x 9 rounded rectangle
of radius 4 evaluated at its (cut-away) top-left corner pixel. -/
theorem roundRect_exact_cover_witness :
    1 ≤ clampedR 9 9 4 ∧
    covCount (filled_round_rectangle 0 0 9 9 4) 0 0 =
      if inRoundRect 9 9 (clampedR 9 9 4) (0 - 0) (0 - 0) then 1 else 0 :=
  ⟨by decide, roundRect_exact_cover 0 0 9 9 4 0 0 (by decide)⟩

end GfxVerify
